import Mathlib

/-!
Shallow embedding of `rom-thumbnails-downloader` (src/src/rom_thumbnails_downloader/cli.py,
with the legacy variant src/match_screenshots.py where noted).  Strings are modelled as
`List Char`; Python's `pathlib` / `urllib` helpers are modelled for ASCII, POSIX-normalized
inputs, which is what the program feeds them.
-/

/-- Whitespace characters stripped by Python's `str.strip()` (ASCII fragment). -/
def isPySpace (c : Char) : Bool :=
  c == ' ' || c == '\t' || c == '\n' || c == '\r' || c == '\x0b' || c == '\x0c'

/-- Python `str.strip()`: drop leading and trailing whitespace. -/
def pyStrip (t : List Char) : List Char :=
  ((t.dropWhile isPySpace).reverse.dropWhile isPySpace).reverse

/-- Python `str.lower()` (ASCII fragment). -/
def pyLower (t : List Char) : List Char := t.map Char.toLower

/-- Split a POSIX path string at `'/'` separators. -/
def splitOnSlash : List Char → List (List Char)
  | [] => [[]]
  | c :: rest =>
    if c == '/' then [] :: splitOnSlash rest
    else
      match splitOnSlash rest with
      | s :: ss => (c :: s) :: ss
      | [] => [[c]]

/-- `pathlib` drops empty and `"."` segments when parsing a path. -/
def pathSegments (t : List Char) : List (List Char) :=
  (splitOnSlash t).filter (fun s => !s.isEmpty && s ≠ ['.'])

/-- Python `Path(t).name`: the last path component (empty for `""`, `"/"`, `"."`). -/
def pyName (t : List Char) : List Char :=
  (pathSegments t).getLast?.getD []

/-- Index of the last occurrence of `c`, Python `str.rfind` (None for -1). -/
def rfindChar (c : Char) (t : List Char) : Option Nat :=
  if c ∈ t then some (t.length - 1 - t.reverse.findIdx (fun d => d == c)) else none

/-- `pathlib` stem rule applied to a bare name: cut at the last `'.'` provided
it is neither the first character nor the last. -/
def stemOfName (name : List Char) : List Char :=
  match rfindChar '.' name with
  | some i => if 0 < i ∧ i + 1 < name.length then name.take i else name
  | none => name

/-- `pathlib` suffix rule applied to a bare name. -/
def suffixOfName (name : List Char) : List Char :=
  match rfindChar '.' name with
  | some i => if 0 < i ∧ i + 1 < name.length then name.drop i else []
  | none => []

/-- Python `Path(t).stem`. -/
def pyStem (t : List Char) : List Char := stemOfName (pyName t)

/-- The forward scan of `clean_title` (cli.py lines 170-180): starting at the
rightmost `'('`, track nested-parenthesis depth and report the index where the
depth first returns to zero, if any. -/
def scanClose : List Char → Int → Nat → Option Nat
  | [], _, _ => none
  | c :: rest, depth, i =>
    if c == '(' then scanClose rest (depth + 1) (i + 1)
    else if c == ')' then
      if depth - 1 = 0 then some i else scanClose rest (depth - 1) (i + 1)
    else scanClose rest depth (i + 1)

/-- `close_pos` of `clean_title`'s loop body. -/
def findCloseParen (t : List Char) (lastOpen : Nat) : Option Nat :=
  scanClose (t.drop lastOpen) 0 lastOpen

/-- The `while True` loop of `clean_title` (cli.py lines 164-187), with explicit
fuel standing for the number of iterations still allowed.  One iteration: find the
rightmost `'('`; if there is none, stop; otherwise truncate the string before that
`'('` — in the source both the matched-close and the no-close branch truncate
identically. -/
def clean_title_loop : Nat → List Char → Option (List Char)
  | 0, _ => none
  | fuel + 1, t =>
    match rfindChar '(' t with
    | none => some t
    | some lastOpen =>
      match findCloseParen t lastOpen with
      | none => clean_title_loop fuel (t.take lastOpen)
      | some _ => clean_title_loop fuel (t.take lastOpen)

/-- The paren-stripping loop run to completion; `t.length + 1` iterations always
suffice (proved below), so the `getD` default is never taken. -/
def stripParens (t : List Char) : List Char :=
  (clean_title_loop (t.length + 1) t).getD t

/-- `clean_title` (cli.py lines 145-190): drop the extension via `Path(title).stem`,
repeatedly strip the last parenthesised group, trim whitespace. -/
def clean_title (t : List Char) : List Char :=
  pyStrip (stripParens (pyStem t))

/-- Does `needle` start `hay`? (helper for Python's `in` substring test). -/
def startsWithSeq : List Char → List Char → Bool
  | [], _ => true
  | _ :: _, [] => false
  | a :: as, b :: bs => a == b && startsWithSeq as bs

/-- Python's `needle in hay` substring containment. -/
def containsSeq (needle : List Char) : List Char → Bool
  | [] => startsWithSeq needle []
  | b :: bs => startsWithSeq needle (b :: bs) || containsSeq needle bs

/-- One step of `re.findall(r"\(([^)]+)\)", title)` scanning: at a literal `'('`
the greedy `[^)]+` takes the maximal run of non-`')'` characters, which must be
non-empty and followed by `')'`; on failure the scan advances one character. -/
def parenGroupsGo : Nat → List Char → List (List Char)
  | 0, _ => []
  | _ + 1, [] => []
  | fuel + 1, c :: rest =>
    let grp := rest.takeWhile (fun d => !(d == ')'))
    if c == '(' && !grp.isEmpty && (rest.drop grp.length).head? == some ')' then
      grp :: parenGroupsGo fuel (rest.drop (grp.length + 1))
    else
      parenGroupsGo fuel rest

/-- `re.findall(r"\(([^)]+)\)", title)` (cli.py line 220): the captured contents
of each parenthesized group. -/
def parenGroups (t : List Char) : List (List Char) :=
  parenGroupsGo t.length t

/-- The inner loop of `apply_region_preference` (cli.py lines 220-224): does
`region` occur, case-insensitively, inside some parenthesized group of `title`? -/
def regionMatches (region title : List Char) : Bool :=
  (parenGroups title).any (fun g => containsSeq (pyLower region) (pyLower g))

/-- A catalog candidate: `(game_title, image_url)`. -/
abbrev RegionEntry := List Char × List Char

/-- Scan `entries` in order for the first title matching `region` (cli.py lines 217-224). -/
def findRegionEntry (region : List Char) : List RegionEntry → Option (List Char)
  | [] => none
  | (title, url) :: rest =>
    if regionMatches region title then some url else findRegionEntry region rest

/-- Iterate the priority regions in order, returning on the first tier with a hit
(cli.py lines 216-224). -/
def findPreferred : List (List Char) → List RegionEntry → Option (List Char)
  | [], _ => none
  | r :: rs, entries =>
    match findRegionEntry r entries with
    | some url => some url
    | none => findPreferred rs entries

/-- `DEFAULT_REGION_ORDER` (cli.py line 29). -/
def DEFAULT_REGION_ORDER : List (List Char) :=
  ["usa".toList, "europe".toList, "world".toList]

/-- `apply_region_preference` (cli.py lines 193-227).  `region_priority = none`
models the Python default argument `None`. -/
def apply_region_preference (entries : List RegionEntry)
    (region_priority : Option (List (List Char))) : Option (List Char) :=
  match entries with
  | [] => none
  | [(_, url)] => some url
  | (t₁, u₁) :: e₂ :: rest =>
    let rp := region_priority.getD DEFAULT_REGION_ORDER
    match findPreferred rp ((t₁, u₁) :: e₂ :: rest) with
    | some url => some url
    | none => some u₁

/-- `THUMBNAIL_TYPE_MAPPING` (cli.py lines 19-23). -/
def THUMBNAIL_TYPE_MAPPING : List (List Char × List Char) :=
  [("snapshot".toList, "Named_Snaps".toList),
   ("boxart".toList, "Named_Boxarts".toList),
   ("title_screen".toList, "Named_Titles".toList)]

/-- `DEFAULT_THUMBNAIL_ORDER` (cli.py line 26). -/
def DEFAULT_THUMBNAIL_ORDER : List (List Char) :=
  ["snapshot".toList, "boxart".toList, "title_screen".toList]

/-- Grouping of a key's candidates by CSV image type, as built by `load_csv_data`
(`console_entries[clean_name]`): an insertion-ordered dict. -/
abbrev TypeGroups := List (List Char × List RegionEntry)

/-- Python truthiness of `selected_url : Optional[str]`. -/
def pyTruthyUrl : Option (List Char) → Bool
  | none => false
  | some u => !u.isEmpty

/-- The `for csv_image_type in csv_image_types` loop of `load_csv_data`
(cli.py lines 289-297): `acc` is the running value of `selected_url`.  A type
present with a non-empty list overwrites `selected_url` with the region-filtered
pick, and the loop `break`s only when that value is truthy. -/
def select_thumbnail_loop : List (List Char) → TypeGroups →
    Option (List (List Char)) → Option (List Char) → Option (List Char)
  | [], _, _, acc => acc
  | t :: ts, groups, rp, acc =>
    match List.lookup t groups with
    | none => select_thumbnail_loop ts groups rp acc
    | some entries =>
      if entries.isEmpty then select_thumbnail_loop ts groups rp acc
      else
        let sel := apply_region_preference entries rp
        if pyTruthyUrl sel then sel else select_thumbnail_loop ts groups rp sel

/-- The per-key selection of `load_csv_data` (cli.py lines 285-300): run the type
loop, then keep the result only when `if selected_url:` holds, i.e. the key is
written into `console_map` exactly when the result here is `some`. -/
def select_thumbnail_url (csv_image_types : List (List Char)) (groups : TypeGroups)
    (region_priority : Option (List (List Char))) : Option (List Char) :=
  let r := select_thumbnail_loop csv_image_types groups region_priority none
  if pyTruthyUrl r then r else none

/-- The effective contribution of a single thumbnail type to the selection loop:
`some u` when the type is present with a non-empty candidate list whose
region-filtered pick `u` is a non-empty (truthy) URL. -/
def typeYield (groups : TypeGroups) (rp : Option (List (List Char)))
    (t : List Char) : Option (List Char) :=
  match List.lookup t groups with
  | none => none
  | some entries =>
    if entries.isEmpty then none
    else
      match apply_region_preference entries rp with
      | none => none
      | some u => if u.isEmpty then none else some u

/-- `CONSOLE_MAPPING` (cli.py lines 32-142): ROM folder name to CSV console name. -/
def CONSOLE_MAPPING : List (List Char × List Char) :=
  [
   ("3do".toList, "The_3DO_Company_-_3DO".toList),
   ("amiga".toList, "Commodore_-_Amiga".toList),
   ("amiga1200".toList, "Commodore_-_Amiga".toList),
   ("amiga600".toList, "Commodore_-_Amiga".toList),
   ("amigacd32".toList, "Commodore_-_CD32".toList),
   ("amstradcpc".toList, "Amstrad_-_CPC".toList),
   ("arcade".toList, "MAME".toList),
   ("arcadia".toList, "Emerson_-_Arcadia_2001".toList),
   ("arduboy".toList, "Arduboy_Inc_-_Arduboy".toList),
   ("atari2600".toList, "Atari_-_2600".toList),
   ("atari5200".toList, "Atari_-_5200".toList),
   ("atari7800".toList, "Atari_-_7800".toList),
   ("atari800".toList, "Atari_-_8-bit".toList),
   ("atarijaguar".toList, "Atari_-_Jaguar".toList),
   ("atarilynx".toList, "Atari_-_Lynx".toList),
   ("atarist".toList, "Atari_-_ST".toList),
   ("atarixe".toList, "Atari_-_8-bit".toList),
   ("atomiswave".toList, "Atomiswave".toList),
   ("c64".toList, "Commodore_-_64".toList),
   ("cdtv".toList, "Commodore_-_CDTV".toList),
   ("channelf".toList, "Fairchild_-_Channel_F".toList),
   ("colecovision".toList, "Coleco_-_ColecoVision".toList),
   ("cps".toList, "FBNeo_-_Arcade_Games".toList),
   ("cps1".toList, "FBNeo_-_Arcade_Games".toList),
   ("cps2".toList, "FBNeo_-_Arcade_Games".toList),
   ("cps3".toList, "FBNeo_-_Arcade_Games".toList),
   ("dreamcast".toList, "Sega_-_Dreamcast".toList),
   ("famicom".toList, "Nintendo_-_Nintendo_Entertainment_System".toList),
   ("fba".toList, "FBNeo_-_Arcade_Games".toList),
   ("fbneo".toList, "FBNeo_-_Arcade_Games".toList),
   ("fds".toList, "Nintendo_-_Family_Computer_Disk_System".toList),
   ("gamegear".toList, "Sega_-_Game_Gear".toList),
   ("gb".toList, "Nintendo_-_Game_Boy".toList),
   ("gba".toList, "Nintendo_-_Game_Boy_Advance".toList),
   ("gbc".toList, "Nintendo_-_Game_Boy_Color".toList),
   ("gc".toList, "Nintendo_-_GameCube".toList),
   ("genesis".toList, "Sega_-_Mega_Drive_-_Genesis".toList),
   ("gx4000".toList, "Amstrad_-_GX4000".toList),
   ("intellivision".toList, "Mattel_-_Intellivision".toList),
   ("mame".toList, "MAME".toList),
   ("mark3".toList, "Sega_-_Master_System_-_Mark_III".toList),
   ("mastersystem".toList, "Sega_-_Master_System_-_Mark_III".toList),
   ("megacd".toList, "Sega_-_Mega-CD_-_Sega_CD".toList),
   ("megacdjp".toList, "Sega_-_Mega-CD_-_Sega_CD".toList),
   ("megadrive".toList, "Sega_-_Mega_Drive_-_Genesis".toList),
   ("megadrivejp".toList, "Sega_-_Mega_Drive_-_Genesis".toList),
   ("msx".toList, "Microsoft_-_MSX".toList),
   ("msx1".toList, "Microsoft_-_MSX".toList),
   ("msx2".toList, "Microsoft_-_MSX2".toList),
   ("n3ds".toList, "Nintendo_-_Nintendo_3DS".toList),
   ("n64".toList, "Nintendo_-_Nintendo_64".toList),
   ("n64dd".toList, "Nintendo_-_Nintendo_64DD".toList),
   ("naomi".toList, "Sega_-_Naomi".toList),
   ("naomi2".toList, "Sega_-_Naomi_2".toList),
   ("naomigd".toList, "Sega_-_Naomi".toList),
   ("nds".toList, "Nintendo_-_Nintendo_DS".toList),
   ("neogeo".toList, "SNK_-_Neo_Geo".toList),
   ("neogeocd".toList, "SNK_-_Neo_Geo_CD".toList),
   ("neogeocdjp".toList, "SNK_-_Neo_Geo_CD".toList),
   ("nes".toList, "Nintendo_-_Nintendo_Entertainment_System".toList),
   ("ngp".toList, "SNK_-_Neo_Geo_Pocket".toList),
   ("ngpc".toList, "SNK_-_Neo_Geo_Pocket_Color".toList),
   ("odyssey2".toList, "Magnavox_-_Odyssey2".toList),
   ("pc88".toList, "NEC_-_PC-8001_-_PC-8801".toList),
   ("pc98".toList, "NEC_-_PC-98".toList),
   ("pcengine".toList, "NEC_-_PC_Engine_-_TurboGrafx_16".toList),
   ("pcenginecd".toList, "NEC_-_PC_Engine_CD_-_TurboGrafx-CD".toList),
   ("pcfx".toList, "NEC_-_PC-FX".toList),
   ("plus4".toList, "Commodore_-_Plus-4".toList),
   ("pokemini".toList, "Nintendo_-_Pokemon_Mini".toList),
   ("ps2".toList, "Sony_-_PlayStation_2".toList),
   ("ps3".toList, "Sony_-_PlayStation_3".toList),
   ("ps4".toList, "Sony_-_PlayStation_4".toList),
   ("psp".toList, "Sony_-_PlayStation_Portable".toList),
   ("psvita".toList, "Sony_-_PlayStation_Vita".toList),
   ("psx".toList, "Sony_-_PlayStation".toList),
   ("pv1000".toList, "Casio_-_PV-1000".toList),
   ("satellaview".toList, "Nintendo_-_Satellaview".toList),
   ("saturn".toList, "Sega_-_Saturn".toList),
   ("saturnjp".toList, "Sega_-_Saturn".toList),
   ("scummvm".toList, "ScummVM".toList),
   ("scv".toList, "Epoch_-_Super_Cassette_Vision".toList),
   ("sega32x".toList, "Sega_-_32X".toList),
   ("sega32xjp".toList, "Sega_-_32X".toList),
   ("sega32xna".toList, "Sega_-_32X".toList),
   ("segacd".toList, "Sega_-_Mega-CD_-_Sega_CD".toList),
   ("sfc".toList, "Nintendo_-_Super_Nintendo_Entertainment_System".toList),
   ("sg-1000".toList, "Sega_-_SG-1000".toList),
   ("snes".toList, "Nintendo_-_Super_Nintendo_Entertainment_System".toList),
   ("snesna".toList, "Nintendo_-_Super_Nintendo_Entertainment_System".toList),
   ("sufami".toList, "Nintendo_-_Sufami_Turbo".toList),
   ("supergrafx".toList, "NEC_-_PC_Engine_SuperGrafx".toList),
   ("supracan".toList, "Funtech_-_Super_Acan".toList),
   ("tg16".toList, "NEC_-_PC_Engine_-_TurboGrafx_16".toList),
   ("tg-cd".toList, "NEC_-_PC_Engine_CD_-_TurboGrafx-CD".toList),
   ("vectrex".toList, "GCE_-_Vectrex".toList),
   ("vic20".toList, "Commodore_-_VIC-20".toList),
   ("videopac".toList, "Philips_-_Videopac".toList),
   ("virtualboy".toList, "Nintendo_-_Virtual_Boy".toList),
   ("wii".toList, "Nintendo_-_Wii".toList),
   ("wiiu".toList, "Nintendo_-_Wii_U".toList),
   ("wonderswan".toList, "Bandai_-_WonderSwan".toList),
   ("wonderswancolor".toList, "Bandai_-_WonderSwan_Color".toList),
   ("x1".toList, "Sharp_-_X1".toList),
   ("x68000".toList, "Sharp_-_X68000".toList),
   ("xbox".toList, "Microsoft_-_Xbox".toList),
   ("xbox360".toList, "Microsoft_-_Xbox_360".toList),
   ("zx81".toList, "Sinclair_-_ZX_81".toList),
   ("zxspectrum".toList, "Sinclair_-_ZX_Spectrum".toList)]

/-- `CONSOLE_MAPPING.get(raw_console_name, raw_console_name)` (cli.py line 398). -/
def consoleMapGet (raw : List Char) : List Char :=
  (List.lookup raw CONSOLE_MAPPING).getD raw

/-- One ROM file found by `rom_root.glob("*/*")`: the name of its parent
(system) directory and its file name.  Only plain files reach the loop body, so
the model's input list stands for the files among the glob results, in listing
order; the stored "absolute path" of the source is the file itself here. -/
structure RomFile where
  parent : List Char
  name : List Char
deriving DecidableEq

/-- Diagnostics printed by `discover_roms`. -/
inductive RomWarning where
  | duplicate (console cleanName : List Char)
  | unmapped (rawConsole : List Char)
deriving DecidableEq

/-- `{console: {clean_name: rom_file}}` as an insertion-ordered dict of dicts. -/
abbrev RomMap := List (List Char × List (List Char × RomFile))

/-- Dict-of-dicts read: `rom_map[console][clean_name]` if both keys are present. -/
def lookupRom (m : RomMap) (console key : List Char) : Option RomFile :=
  match List.lookup console m with
  | none => none
  | some roms => List.lookup key roms

/-- `rom_map[console_name][clean_name] = rom_file` on a defaultdict(dict):
append the binding, creating the console's dict on first use. -/
def insertRom : RomMap → List Char → List Char → RomFile → RomMap
  | [], console, key, f => [(console, [(key, f)])]
  | (c, roms) :: rest, console, key, f =>
    if c == console then (c, roms ++ [(key, f)]) :: rest
    else (c, roms) :: insertRom rest console key f

/-- The body of `discover_roms`'s file loop (cli.py lines 391-421), threading the
map together with the printed warnings. -/
def discoverStep (st : RomMap × List RomWarning) (f : RomFile) :
    RomMap × List RomWarning :=
  let console := consoleMapGet f.parent
  let key := clean_title f.name
  if key.isEmpty then st
  else
    match lookupRom st.1 console key with
    | some _ => (st.1, st.2 ++ [RomWarning.duplicate console key])
    | none =>
      let ws :=
        if (List.lookup f.parent CONSOLE_MAPPING).isNone then
          st.2 ++ [RomWarning.unmapped f.parent]
        else st.2
      (insertRom st.1 console key f, ws)

/-- `discover_roms` (cli.py lines 370-424) over the listed files: fold the loop
body, then keep only consoles with at least one ROM. -/
def discover_roms (files : List RomFile) : RomMap × List RomWarning :=
  let st := files.foldl discoverStep ([], [])
  (st.1.filter (fun p => !p.2.isEmpty), st.2)

/-- Does `f` survive as the entry for `(console, key)`?  The predicate of the
first-wins characterisation: a non-empty clean name equal to `key` in a folder
mapping to `console`. -/
def romMatcher (console key : List Char) (f : RomFile) : Bool :=
  !(clean_title f.name).isEmpty && consoleMapGet f.parent == console
    && clean_title f.name == key

/-- Is `f` a duplicate w.r.t. the files discovered before it? -/
def isDuplicateFile (earlier : List RomFile) (f : RomFile) : Bool :=
  !(clean_title f.name).isEmpty
    && earlier.any (romMatcher (consoleMapGet f.parent) (clean_title f.name))

/-- The duplicate warnings that the listing `files` ought to produce, one per
discarded file, in order. -/
def dupWarnList : List RomFile → List RomFile → List RomWarning
  | _, [] => []
  | earlier, f :: rest =>
    (if isDuplicateFile earlier f then
       [RomWarning.duplicate (consoleMapGet f.parent) (clean_title f.name)]
     else []) ++ dupWarnList (earlier ++ [f]) rest

/-- Selects the duplicate-ROM warnings among the diagnostics. -/
def isDupWarning : RomWarning → Bool
  | .duplicate _ _ => true
  | .unmapped _ => false

/-- Well-formedness of the dict-of-dicts: console keys are distinct, every
console holds a non-empty dict, and clean-name keys are distinct within it. -/
def RomMapWF (m : RomMap) : Prop :=
  (m.map Prod.fst).Nodup ∧ ∀ p ∈ m, p.2 ≠ [] ∧ (p.2.map Prod.fst).Nodup

/-- Characters allowed in a URL scheme after the leading letter. -/
def isSchemeChar (c : Char) : Bool :=
  c.isAlpha || c.isDigit || c == '+' || c == '-' || c == '.'

/-- `urllib.parse` scheme splitting: strip `scheme:` when the text before the
first `':'` is a non-empty run of scheme characters starting with a letter. -/
def dropScheme (u : List Char) : List Char :=
  match List.findIdx? (fun c => c == ':') u with
  | none => u
  | some i =>
    let pre := u.take i
    if 0 < i && (match pre with | c :: _ => c.isAlpha | [] => false)
        && pre.all isSchemeChar then
      u.drop (i + 1)
    else u

/-- `urllib.parse` netloc splitting: after `"//"`, the netloc extends to the next
`'/'`, `'?'` or `'#'` (which stays in the remainder). -/
def dropNetloc (u : List Char) : List Char :=
  match u with
  | '/' :: '/' :: rest =>
    rest.drop (rest.takeWhile (fun c => !(c == '/' || c == '?' || c == '#'))).length
  | _ => u

/-- `urlparse` splits `;params` off the last path segment. -/
def dropParams (p : List Char) : List Char :=
  let start := (rfindChar '/' p).getD 0
  match List.findIdx? (fun c => c == ';') (p.drop start) with
  | some j => p.take (start + j)
  | none => p

/-- `urlparse(image_url).path` (cli.py line 458): strip scheme and netloc, cut the
fragment and the query, split off params. -/
def urlparsePath (u : List Char) : List Char :=
  dropParams (((dropNetloc (dropScheme u)).takeWhile (fun c => !(c == '#'))).takeWhile
    (fun c => !(c == '?')))

/-- The extension chosen for the destination (cli.py lines 458-463):
`Path(parsed_url.path).suffix`, defaulting to `.png` when empty. -/
def imageExt (url : List Char) : List Char :=
  let sfx := suffixOfName (pyName (urlparsePath url))
  if sfx.isEmpty then ".png".toList else sfx

/-- Split a normalized POSIX path string into the part up to and including the
last `'/'` and the final name. -/
def splitLastSlash (p : List Char) : List Char × List Char :=
  match rfindChar '/' p with
  | none => ([], p)
  | some i => (p.take (i + 1), p.drop (i + 1))

/-- `rom_path.with_suffix(ext)` (cli.py line 465) on a normalized path string:
replace the final name's suffix by `ext`. -/
def pyWithSuffix (p ext : List Char) : List Char :=
  let dn := splitLastSlash p
  dn.1 ++ stemOfName dn.2 ++ ext

/-- The `safe` parameter of `quote` in cli.py line 472. -/
def SAFE_CHARS : List Char := ":/?#[]@!$&\x27()*+,;=".toList

/-- Characters `urllib.parse.quote` never encodes. -/
def isAlwaysSafe (c : Char) : Bool :=
  c.isAlpha || c.isDigit || c == '_' || c == '.' || c == '-' || c == '~'

/-- UTF-8 encoding of one character, as a list of byte values. -/
def utf8Bytes (c : Char) : List Nat :=
  let n := c.toNat
  if n < 128 then [n]
  else if n < 2048 then [192 + n / 64, 128 + n % 64]
  else if n < 65536 then [224 + n / 4096, 128 + n / 64 % 64, 128 + n % 64]
  else [240 + n / 262144, 128 + n / 4096 % 64, 128 + n / 64 % 64, 128 + n % 64]

/-- Uppercase hexadecimal digit. -/
def hexDigit (n : Nat) : Char :=
  if n < 10 then Char.ofNat (48 + n) else Char.ofNat (55 + n)

/-- `%XX` escape of one byte. -/
def percentByte (b : Nat) : List Char :=
  ['%', hexDigit (b / 16), hexDigit (b % 16)]

/-- `urllib.parse.quote(s, safe)`: keep always-safe and `safe` (ASCII) characters,
percent-encode each UTF-8 byte of the rest. -/
def pyQuote (safe : List Char) (s : List Char) : List Char :=
  (s.map (fun c =>
    if isAlwaysSafe c || safe.contains c then [c]
    else ((utf8Bytes c).map percentByte).flatten)).flatten

/-- The command string yielded at cli.py line 473. -/
def mkWgetCommand (encodedUrl dest : List Char) : List Char :=
  "wget \"".toList ++ encodedUrl ++ "\" -O \"".toList ++ dest ++ "\"".toList

/-- `{console: {clean_name: image_url}}` and `{console: {clean_name: rom_path}}`
as insertion-ordered dicts (paths as strings here). -/
abbrev UrlMap := List (List Char × List (List Char × List Char))

/-- Dict-of-dicts read on string-valued maps. -/
def lookupUrl (m : UrlMap) (console key : List Char) : Option (List Char) :=
  match List.lookup console m with
  | none => none
  | some inner => List.lookup key inner

/-- The inner ROM loop of `generate_wget_commands` (cli.py lines 449-473):
`exists` models `dest_path.exists()`, the only filesystem read. -/
def genConsoleCommands (imgs : List (List Char × List Char))
    (fsExists : List Char → Bool) : List (List Char × List Char) → List (List Char)
  | [] => []
  | (key, romPath) :: rest =>
    match List.lookup key imgs with
    | none => genConsoleCommands imgs fsExists rest
    | some url =>
      let dest := pyWithSuffix romPath (imageExt url)
      if fsExists dest then genConsoleCommands imgs fsExists rest
      else mkWgetCommand (pyQuote SAFE_CHARS url) dest
            :: genConsoleCommands imgs fsExists rest

/-- `generate_wget_commands` (cli.py lines 427-473), the yielded commands in
order; a console missing from `image_map` only prints a warning and is skipped. -/
def generate_wget_commands (image_map : UrlMap) (fsExists : List Char → Bool) :
    UrlMap → List (List Char)
  | [] => []
  | (console, roms) :: rest =>
    (match List.lookup console image_map with
     | none => []
     | some imgs => genConsoleCommands imgs fsExists roms)
      ++ generate_wget_commands image_map fsExists rest

/-- A (system, key) pair present in both maps, with its ROM path and chosen URL. -/
structure MatchedPair where
  console : List Char
  key : List Char
  path : List Char
  url : List Char
deriving DecidableEq

/-- The matched pairs contributed by one console's ROM dict, in ROM order. -/
def pairsOfConsole (c : List Char) (imgs : List (List Char × List Char)) :
    List (List Char × List Char) → List MatchedPair
  | [] => []
  | (key, romPath) :: rest =>
    (match List.lookup key imgs with
     | none => []
     | some url => [⟨c, key, romPath, url⟩]) ++ pairsOfConsole c imgs rest

/-- All (system, key) pairs present in both maps, in iteration order. -/
def enumMatchedPairs (image_map : UrlMap) : UrlMap → List MatchedPair
  | [] => []
  | (console, roms) :: rest =>
    (match List.lookup console image_map with
     | none => []
     | some imgs => pairsOfConsole console imgs roms)
      ++ enumMatchedPairs image_map rest

/-- Destination path of a matched pair. -/
def pairDest (e : MatchedPair) : List Char := pyWithSuffix e.path (imageExt e.url)

/-- Command emitted for a matched pair. -/
def pairCommand (e : MatchedPair) : List Char :=
  mkWgetCommand (pyQuote SAFE_CHARS e.url) (pairDest e)

/-- The value of `selected_url` after one non-breaking iteration of the type
loop: overwritten by the region-filtered pick when the type is present with a
non-empty list, untouched otherwise. -/
def selStep (groups : TypeGroups) (rp : Option (List (List Char)))
    (t : List Char) (acc : Option (List Char)) : Option (List Char) :=
  match List.lookup t groups with
  | none => acc
  | some entries =>
    if entries.isEmpty then acc else apply_region_preference entries rp

/-! ## Helper lemmas -/

theorem rfindChar_lt_length {c : Char} {t : List Char} {i : Nat}
    (h : rfindChar c t = some i) : i < t.length := by
  unfold rfindChar at h
  split at h
  · rename_i hmem
    have hlen : 0 < t.length := List.length_pos.mpr (List.ne_nil_of_mem hmem)
    have : t.length - 1 - t.reverse.findIdx (fun d => d == c) = i := by
      exact Option.some.inj h
    omega
  · exact absurd h (by simp)

theorem rfindChar_eq_none {c : Char} {t : List Char}
    (h : rfindChar c t = none) : c ∉ t := by
  unfold rfindChar at h
  split at h
  · exact absurd h (by simp)
  · assumption

theorem rfindChar_of_not_mem {c : Char} {t : List Char} (h : c ∉ t) :
    rfindChar c t = none := by
  unfold rfindChar
  simp [h]

theorem clean_title_loop_agrees (f₁ : Nat) :
    ∀ (f₂ : Nat) (t : List Char), t.length < f₁ → t.length < f₂ →
      clean_title_loop f₁ t = clean_title_loop f₂ t := by
  induction f₁ with
  | zero => intro f₂ t h₁ _; omega
  | succ n ih =>
    intro f₂ t h₁ h₂
    match f₂, h₂ with
    | m + 1, h₂ =>
      cases hfind : rfindChar '(' t with
      | none => simp only [clean_title_loop, hfind]
      | some i =>
        have hi : i < t.length := rfindChar_lt_length hfind
        have hlt : (t.take i).length < t.length := by
          simp [List.length_take]; omega
        simp only [clean_title_loop, hfind]
        cases findCloseParen t i with
        | none => exact ih m (t.take i) (by omega) (by omega)
        | some _ => exact ih m (t.take i) (by omega) (by omega)

theorem clean_title_loop_total (fuel : Nat) (t : List Char) (h : t.length < fuel) :
    clean_title_loop fuel t = some (stripParens t) := by
  have hagree := clean_title_loop_agrees fuel (t.length + 1) t h (by omega)
  rw [hagree]
  unfold stripParens
  suffices hs : ∃ r, clean_title_loop (t.length + 1) t = some r by
    obtain ⟨r, hr⟩ := hs
    simp [hr]
  clear hagree h fuel
  suffices hgen : ∀ fuel t, t.length < fuel → ∃ r, clean_title_loop fuel t = some r from
    hgen (t.length + 1) t (by omega)
  intro fuel
  induction fuel with
  | zero => intro t h; omega
  | succ n ih =>
    intro t h
    cases hfind : rfindChar '(' t with
    | none => exact ⟨t, by simp only [clean_title_loop, hfind]⟩
    | some i =>
      have hi : i < t.length := rfindChar_lt_length hfind
      have hlt : (t.take i).length < n := by
        simp [List.length_take]; omega
      simp only [clean_title_loop, hfind]
      cases findCloseParen t i with
      | none => exact ih (t.take i) hlt
      | some _ => exact ih (t.take i) hlt

theorem dropWhile_idem (p : Char → Bool) (l : List Char) :
    (l.dropWhile p).dropWhile p = l.dropWhile p := by
  induction l with
  | nil => rfl
  | cons a l ih =>
    by_cases hpa : p a
    · simp [List.dropWhile_cons, hpa, ih]
    · simp [List.dropWhile_cons, hpa]

theorem dropWhile_eq_drop_away (p : Char → Bool) (l : List Char) :
    ∃ pre, pre ++ l.dropWhile p = l := by
  induction l with
  | nil => exact ⟨[], rfl⟩
  | cons a l ih =>
    by_cases hpa : p a
    · obtain ⟨pre, hpre⟩ := ih
      exact ⟨a :: pre, by simp [List.dropWhile_cons, hpa, hpre]⟩
    · exact ⟨[], by simp [List.dropWhile_cons, hpa]⟩

theorem mem_of_mem_dropWhile {p : Char → Bool} {l : List Char} {a : Char}
    (h : a ∈ l.dropWhile p) : a ∈ l :=
  (List.dropWhile_sublist p).mem h

theorem mem_of_mem_pyStrip {t : List Char} {a : Char} (h : a ∈ pyStrip t) : a ∈ t := by
  unfold pyStrip at h
  rw [List.mem_reverse] at h
  have h2 := mem_of_mem_dropWhile h
  rw [List.mem_reverse] at h2
  exact mem_of_mem_dropWhile h2

theorem head?_dropWhile_false {p : Char → Bool} (l : List Char) {a : Char}
    (h : (l.dropWhile p).head? = some a) : p a = false := by
  induction l with
  | nil => simp at h
  | cons b l ih =>
    by_cases hpb : p b
    · rw [List.dropWhile_cons_of_pos hpb] at h
      exact ih h
    · rw [List.dropWhile_cons_of_neg hpb] at h
      simp at h
      rw [← h]
      exact Bool.of_not_eq_true hpb

theorem dropWhile_eq_self_of_head_false {p : Char → Bool} {l : List Char}
    (h : ∀ a, l.head? = some a → p a = false) : l.dropWhile p = l := by
  cases l with
  | nil => rfl
  | cons a l =>
    have := h a rfl
    simp [List.dropWhile_cons, this]

theorem pyStrip_idem (t : List Char) : pyStrip (pyStrip t) = pyStrip t := by
  obtain ⟨pre, hpre⟩ := dropWhile_eq_drop_away isPySpace (t.dropWhile isPySpace).reverse
  have hu : t.dropWhile isPySpace = pyStrip t ++ pre.reverse := by
    have h := congrArg List.reverse hpre
    simp only [List.reverse_append, List.reverse_reverse] at h
    exact h.symm
  have hstep1 : (pyStrip t).dropWhile isPySpace = pyStrip t := by
    apply dropWhile_eq_self_of_head_false
    intro a ha
    cases hs : pyStrip t with
    | nil => rw [hs] at ha; simp at ha
    | cons b rest =>
      rw [hs] at ha hu
      simp only [List.head?_cons, Option.some.injEq] at ha
      subst ha
      exact head?_dropWhile_false t (by rw [hu]; rfl)
  show ((((pyStrip t).dropWhile isPySpace).reverse).dropWhile isPySpace).reverse = pyStrip t
  rw [hstep1]
  have h2 : (pyStrip t).reverse = (t.dropWhile isPySpace).reverse.dropWhile isPySpace := by
    simp [pyStrip]
  rw [h2, dropWhile_idem]
  simp [pyStrip]

theorem clean_title_loop_no_paren (fuel : Nat) :
    ∀ (t r : List Char), clean_title_loop fuel t = some r → '(' ∉ r := by
  induction fuel with
  | zero => intro t r h; simp [clean_title_loop] at h
  | succ n ih =>
    intro t r h
    cases hfind : rfindChar '(' t with
    | none =>
      simp only [clean_title_loop, hfind] at h
      cases h
      exact rfindChar_eq_none hfind
    | some i =>
      simp only [clean_title_loop, hfind] at h
      cases hcp : findCloseParen t i with
      | none => rw [hcp] at h; exact ih (t.take i) r h
      | some _ => rw [hcp] at h; exact ih (t.take i) r h

theorem clean_title_loop_subset (fuel : Nat) :
    ∀ (t r : List Char), clean_title_loop fuel t = some r → ∀ a ∈ r, a ∈ t := by
  induction fuel with
  | zero => intro t r h; simp [clean_title_loop] at h
  | succ n ih =>
    intro t r h
    cases hfind : rfindChar '(' t with
    | none =>
      simp only [clean_title_loop, hfind] at h
      cases h
      exact fun a ha => ha
    | some i =>
      simp only [clean_title_loop, hfind] at h
      have hsub : ∀ a ∈ r, a ∈ t.take i := by
        cases hcp : findCloseParen t i with
        | none => rw [hcp] at h; exact ih (t.take i) r h
        | some _ => rw [hcp] at h; exact ih (t.take i) r h
      exact fun a ha => List.take_subset i t (hsub a ha)

theorem stripParens_no_paren (t : List Char) : '(' ∉ stripParens t :=
  clean_title_loop_no_paren (t.length + 1) t (stripParens t)
    (clean_title_loop_total (t.length + 1) t (by omega))

theorem stripParens_subset (t : List Char) : ∀ a ∈ stripParens t, a ∈ t :=
  clean_title_loop_subset (t.length + 1) t (stripParens t)
    (clean_title_loop_total (t.length + 1) t (by omega))

theorem stripParens_of_no_paren {t : List Char} (h : '(' ∉ t) : stripParens t = t := by
  unfold stripParens
  rw [show clean_title_loop (t.length + 1) t = some t by
    simp only [clean_title_loop, rfindChar_of_not_mem h]]
  rfl

theorem mem_of_getLast?_eq {l : List (List Char)} {a : List Char}
    (h : l.getLast? = some a) : a ∈ l := by
  rw [← List.head?_reverse] at h
  rw [← List.mem_reverse]
  cases hr : l.reverse with
  | nil => rw [hr] at h; simp at h
  | cons b rest =>
    rw [hr] at h
    simp only [List.head?_cons, Option.some.injEq] at h
    rw [← h]
    exact List.mem_cons_self b rest

theorem no_slash_splitOnSlash (t : List Char) :
    ∀ s ∈ splitOnSlash t, '/' ∉ s := by
  induction t with
  | nil => intro s hs; simp [splitOnSlash] at hs; simp [hs]
  | cons c rest ih =>
    intro s hs
    simp only [splitOnSlash] at hs
    by_cases hc : c == '/'
    · rw [if_pos hc] at hs
      rcases List.mem_cons.mp hs with h | h
      · simp [h]
      · exact ih s h
    · rw [if_neg hc] at hs
      cases hsplit : splitOnSlash rest with
      | nil =>
        rw [hsplit] at hs; simp at hs; rw [hs]
        intro hmem
        rcases List.mem_cons.mp hmem with h | h
        · exact hc (by simp [h.symm])
        · simp at h
      | cons s0 ss =>
        rw [hsplit] at hs
        rcases List.mem_cons.mp hs with h | h
        · rw [h]
          intro hmem
          rcases List.mem_cons.mp hmem with h2 | h2
          · exact hc (by simp [h2.symm])
          · exact ih s0 (by rw [hsplit]; exact List.mem_cons_self s0 ss) h2
        · exact ih s (by rw [hsplit]; exact List.mem_cons_of_mem s0 h)

theorem no_slash_pyName (t : List Char) : '/' ∉ pyName t := by
  unfold pyName
  cases hlast : (pathSegments t).getLast? with
  | none => simp
  | some s =>
    have hmem : s ∈ pathSegments t := mem_of_getLast?_eq hlast
    have hmem2 : s ∈ splitOnSlash t := List.mem_of_mem_filter hmem
    simpa using no_slash_splitOnSlash t s hmem2

theorem stemOfName_subset (name : List Char) : ∀ a ∈ stemOfName name, a ∈ name := by
  unfold stemOfName
  cases hf : rfindChar '.' name with
  | none => simp only [hf]; exact fun a ha => ha
  | some i =>
    simp only [hf]
    by_cases h : 0 < i ∧ i + 1 < name.length
    · rw [if_pos h]; exact fun a ha => List.take_subset i name ha
    · rw [if_neg h]; exact fun a ha => ha

theorem mem_clean_title {t : List Char} {a : Char} (h : a ∈ clean_title t) :
    a ∈ pyName t := by
  unfold clean_title at h
  have h1 := mem_of_mem_pyStrip h
  have h2 := stripParens_subset (pyStem t) a h1
  exact stemOfName_subset (pyName t) a h2

theorem no_slash_clean_title (t : List Char) : '/' ∉ clean_title t :=
  fun h => no_slash_pyName t (mem_clean_title h)

theorem splitOnSlash_of_no_slash {y : List Char} (h : '/' ∉ y) :
    splitOnSlash y = [y] := by
  induction y with
  | nil => rfl
  | cons c rest ih =>
    have hc : ¬(c == '/') = true := by
      simp only [beq_iff_eq]
      intro hcon
      exact h (by rw [hcon]; exact List.mem_cons_self _ _)
    have hrest : '/' ∉ rest := fun hr => h (List.mem_cons_of_mem c hr)
    simp only [splitOnSlash, if_neg hc, ih hrest]

theorem pyName_of_plain {y : List Char} (hnil : y ≠ []) (hdot : y ≠ ['.'])
    (hslash : '/' ∉ y) : pyName y = y := by
  unfold pyName pathSegments
  rw [splitOnSlash_of_no_slash hslash]
  have h1 : y.isEmpty = false := by simp [hnil]
  have h2 : decide (y = ['.']) = false := by simp [hdot]
  simp [List.filter, h1, h2]

theorem stemOfName_of_no_dot {y : List Char} (h : '.' ∉ y) : stemOfName y = y := by
  unfold stemOfName
  rw [rfindChar_of_not_mem h]

/-! ## Claim theorems -/

/-- C2: the Title Normalizer satisfies the five specified input/output pairs —
`clean_title` removes the last extension segment, repeatedly truncates at the
last `'('` (also when no matching `')'` exists, witnessed by the sixth
conjunct), and trims surrounding whitespace. -/
theorem c2_normalizer_examples :
    clean_title "Game Title (USA).sfc".toList = "Game Title".toList
    ∧ clean_title "Game (Rev A) (USA)".toList = "Game".toList
    ∧ clean_title "Game (Rev (Final)) (USA)".toList = "Game".toList
    ∧ clean_title "()".toList = "".toList
    ∧ clean_title "Game".toList = "Game".toList
    ∧ clean_title "Game (USA".toList = "Game".toList := by
  decide

/-- C5: a single-entry candidate list returns that entry's URL unconditionally,
with no region filtering, whatever the title and the priority list. -/
theorem c5_single_entry_short_circuit (title url : List Char)
    (region_priority : Option (List (List Char))) :
    apply_region_preference [(title, url)] region_priority = some url := rfl

/-- C7: the Title Normalizer is total — each iteration of the strip loop
strictly shortens the string, and for any fuel above the string's length the
loop of `clean_title` reaches its `break` with a result. -/
theorem c7_clean_title_terminates (t : List Char) (fuel : Nat) (h : t.length < fuel) :
    (∀ i, rfindChar '(' t = some i → (t.take i).length < t.length)
    ∧ clean_title_loop fuel t = some (stripParens t) := by
  refine ⟨fun i hi => ?_, clean_title_loop_total fuel t h⟩
  have := rfindChar_lt_length hi
  simp [List.length_take]
  omega

/-- Witness for C7 at a concrete title and fuel. -/
theorem c7_clean_title_terminates_witness :
    clean_title_loop 64 "Game (Rev (Final)) (USA)".toList
      = some (stripParens "Game (Rev (Final)) (USA)".toList) :=
  (c7_clean_title_terminates "Game (Rev (Final)) (USA)".toList 64 (by decide)).2

/-- C10: for every input, `clean_title`'s output contains no `'('` and equals
its own whitespace-stripped form, so every grouping key is parenthesis-free
and trimmed. -/
theorem c10_clean_key_no_paren_trimmed (t : List Char) :
    '(' ∉ clean_title t ∧ pyStrip (clean_title t) = clean_title t := by
  constructor
  · intro hmem
    exact stripParens_no_paren (pyStem t) (mem_of_mem_pyStrip hmem)
  · exact pyStrip_idem _

/-- C6: the Title Normalizer is idempotent on outputs that retain no extension
dot and no parenthesis: `clean_title (clean_title x) = clean_title x`. -/
theorem c6_normalize_idempotent (x : List Char)
    (h : '.' ∉ clean_title x ∧ '(' ∉ clean_title x) :
    clean_title (clean_title x) = clean_title x := by
  obtain ⟨hdot, hparen⟩ := h
  set y := clean_title x with hy
  have hslash : '/' ∉ y := no_slash_clean_title x
  have hname : pyName y = y := by
    by_cases hnil : y = []
    · rw [hnil]; rfl
    · have hdotonly : y ≠ ['.'] := by
        intro hcon
        rw [hcon] at hdot
        exact hdot (List.mem_cons_self _ _)
      exact pyName_of_plain hnil hdotonly hslash
  show pyStrip (stripParens (pyStem y)) = y
  rw [show pyStem y = y from by unfold pyStem; rw [hname]; exact stemOfName_of_no_dot hdot]
  rw [stripParens_of_no_paren hparen, hy]
  exact pyStrip_idem _

/-- Witness for C6 at a concrete input whose normal form has no dot. -/
theorem c6_normalize_idempotent_witness :
    clean_title (clean_title "Game Title (USA).sfc".toList)
      = clean_title "Game Title (USA).sfc".toList :=
  c6_normalize_idempotent "Game Title (USA).sfc".toList (by decide)

theorem findRegionEntry_eq_none {r : List Char} {entries : List RegionEntry}
    (h : ∀ p ∈ entries, regionMatches r p.1 = false) :
    findRegionEntry r entries = none := by
  induction entries with
  | nil => rfl
  | cons e rest ih =>
    obtain ⟨t, u⟩ := e
    have ht : regionMatches r t = false := h (t, u) (List.mem_cons_self _ _)
    simp only [findRegionEntry, ht]
    exact ih fun p hp => h p (List.mem_cons_of_mem _ hp)

theorem findRegionEntry_first {r : List Char} {front back : List RegionEntry}
    {e : RegionEntry} (hfront : ∀ p ∈ front, regionMatches r p.1 = false)
    (he : regionMatches r e.1 = true) :
    findRegionEntry r (front ++ e :: back) = some e.2 := by
  induction front with
  | nil =>
    obtain ⟨t, u⟩ := e
    simp only [List.nil_append, findRegionEntry]
    simp [he]
  | cons p rest ih =>
    obtain ⟨t, u⟩ := p
    have ht : regionMatches r t = false := hfront (t, u) (List.mem_cons_self _ _)
    simp only [List.cons_append, findRegionEntry, ht]
    exact ih fun q hq => hfront q (List.mem_cons_of_mem _ hq)

theorem findPreferred_skip {pre rest : List (List Char)} {entries : List RegionEntry}
    (h : ∀ r ∈ pre, findRegionEntry r entries = none) :
    findPreferred (pre ++ rest) entries = findPreferred rest entries := by
  induction pre with
  | nil => rfl
  | cons r rs ih =>
    have hr : findRegionEntry r entries = none := h r (List.mem_cons_self _ _)
    simp only [List.cons_append, findPreferred, hr]
    exact ih fun q hq => h q (List.mem_cons_of_mem _ hq)

theorem findPreferred_eq_none {rp : List (List Char)} {entries : List RegionEntry}
    (h : ∀ r ∈ rp, findRegionEntry r entries = none) :
    findPreferred rp entries = none := by
  have := @findPreferred_skip rp [] entries h
  simpa using this

/-- C1: with at least two candidates, the selector walks the region-priority
tiers in order — tiers before `r` that match nothing are skipped, tiers after
`r` are never consulted — and inside tier `r` it returns the URL of the first
entry (in original list order) whose title contains the token, where a title
matches only via `regionMatches`, i.e. a case-insensitive substring test
against the contents of its parenthesized groups (`parenGroups`). -/
theorem c1_region_tier_first_match (e₁ e₂ : RegionEntry)
    (es front back : List RegionEntry) (e : RegionEntry)
    (region_priority : Option (List (List Char))) (pre post : List (List Char))
    (r : List Char)
    (hrp : region_priority.getD DEFAULT_REGION_ORDER = pre ++ r :: post)
    (hsplit : e₁ :: e₂ :: es = front ++ e :: back)
    (hpre : ∀ r' ∈ pre, ∀ p ∈ e₁ :: e₂ :: es, regionMatches r' p.1 = false)
    (hfront : ∀ p ∈ front, regionMatches r p.1 = false)
    (he : regionMatches r e.1 = true) :
    apply_region_preference (e₁ :: e₂ :: es) region_priority = some e.2 := by
  obtain ⟨t₁, u₁⟩ := e₁
  obtain ⟨t₂, u₂⟩ := e₂
  have hfp : findPreferred (region_priority.getD DEFAULT_REGION_ORDER)
      ((t₁, u₁) :: (t₂, u₂) :: es) = some e.2 := by
    rw [hrp, findPreferred_skip (fun r' hr' =>
      findRegionEntry_eq_none (fun p hp => hpre r' hr' p hp))]
    simp only [findPreferred]
    rw [hsplit, findRegionEntry_first hfront he]
  simp only [apply_region_preference, hfp]

/-- Witness for C1: the second tier (`usa`) fires after a priority region with
no match, the first entry is skipped because its `usa` occurs outside every
parenthesized group, and the lower-priority `europe` tier is not consulted. -/
theorem c1_region_tier_first_match_witness :
    apply_region_preference
      [("usa game (Japan)".toList, "u1".toList),
       ("Game (USA)".toList, "u2".toList),
       ("Game (Europe)".toList, "u3".toList)]
      (some ["australia".toList, "usa".toList, "europe".toList])
      = some "u2".toList :=
  c1_region_tier_first_match
    ("usa game (Japan)".toList, "u1".toList) ("Game (USA)".toList, "u2".toList)
    [("Game (Europe)".toList, "u3".toList)]
    [("usa game (Japan)".toList, "u1".toList)] [("Game (Europe)".toList, "u3".toList)]
    ("Game (USA)".toList, "u2".toList)
    (some ["australia".toList, "usa".toList, "europe".toList])
    ["australia".toList] ["europe".toList] "usa".toList
    (by decide) (by decide) (by decide) (by decide) (by decide)

/-- C4: when no region token of the effective priority list matches any entry
of a multi-entry candidate list, the selector falls back to the URL of the
first entry in original order. -/
theorem c4_region_fallback_first_entry (e₁ e₂ : RegionEntry) (es : List RegionEntry)
    (region_priority : Option (List (List Char)))
    (h : ∀ r ∈ region_priority.getD DEFAULT_REGION_ORDER,
      ∀ p ∈ e₁ :: e₂ :: es, regionMatches r p.1 = false) :
    apply_region_preference (e₁ :: e₂ :: es) region_priority = some e₁.2 := by
  obtain ⟨t₁, u₁⟩ := e₁
  obtain ⟨t₂, u₂⟩ := e₂
  have hfp : findPreferred (region_priority.getD DEFAULT_REGION_ORDER)
      ((t₁, u₁) :: (t₂, u₂) :: es) = none :=
    findPreferred_eq_none fun r hr =>
      findRegionEntry_eq_none fun p hp => h r hr p hp
  simp only [apply_region_preference, hfp]

/-- Witness for C4: the spec's example — Japan/Brazil/Korea entries under the
default `usa, europe, world` priority yield the first entry's URL. -/
theorem c4_region_fallback_first_entry_witness :
    apply_region_preference
      [("Game (Japan)".toList, "u1".toList),
       ("Game (Brazil)".toList, "u2".toList),
       ("Game (Korea)".toList, "u3".toList)] none = some "u1".toList :=
  c4_region_fallback_first_entry
    ("Game (Japan)".toList, "u1".toList) ("Game (Brazil)".toList, "u2".toList)
    [("Game (Korea)".toList, "u3".toList)] none (by decide)


theorem select_loop_cons (t : List Char) (ts : List (List Char))
    (groups : TypeGroups) (rp : Option (List (List Char))) (acc : Option (List Char)) :
    select_thumbnail_loop (t :: ts) groups rp acc =
      match typeYield groups rp t with
      | some u => some u
      | none => select_thumbnail_loop ts groups rp (selStep groups rp t acc) := by
  simp only [select_thumbnail_loop, typeYield, selStep]
  cases hlk : List.lookup t groups with
  | none => simp [hlk]
  | some entries =>
    simp only [hlk]
    by_cases hemp : entries.isEmpty
    · simp [hemp]
    · simp only [hemp, Bool.false_eq_true, if_false]
      cases happ : apply_region_preference entries rp with
      | none => simp [happ, pyTruthyUrl]
      | some v =>
        by_cases hv : v.isEmpty
        · simp [happ, pyTruthyUrl, hv]
        · simp [happ, pyTruthyUrl, hv]

theorem selStep_falsy {groups : TypeGroups} {rp : Option (List (List Char))}
    {t : List Char} {acc : Option (List Char)} (hacc : pyTruthyUrl acc = false)
    (ht : typeYield groups rp t = none) :
    pyTruthyUrl (selStep groups rp t acc) = false := by
  unfold typeYield at ht
  unfold selStep
  cases hlk : List.lookup t groups with
  | none => exact hacc
  | some entries =>
    simp only [hlk] at ht
    by_cases hemp : entries.isEmpty
    · simp [hemp, hacc]
    · simp only [hemp, Bool.false_eq_true, if_false] at ht ⊢
      cases happ : apply_region_preference entries rp with
      | none => simp [pyTruthyUrl]
      | some v =>
        simp only [happ] at ht
        by_cases hv : v.isEmpty
        · simp [pyTruthyUrl, hv]
        · simp only [hv, Bool.false_eq_true, if_false] at ht
          exact absurd ht (by simp)

theorem typeYield_some_nonempty {groups : TypeGroups} {rp : Option (List (List Char))}
    {t u : List Char} (h : typeYield groups rp t = some u) : u.isEmpty = false := by
  unfold typeYield at h
  cases hlk : List.lookup t groups with
  | none => simp [hlk] at h
  | some entries =>
    simp only [hlk] at h
    by_cases hemp : entries.isEmpty
    · simp [hemp] at h
    · simp only [hemp, Bool.false_eq_true, if_false] at h
      cases happ : apply_region_preference entries rp with
      | none => simp [happ] at h
      | some v =>
        simp only [happ] at h
        by_cases hv : v.isEmpty
        · simp [hv] at h
        · simp only [hv, Bool.false_eq_true, if_false, Option.some.injEq] at h
          rw [← h]
          exact Bool.of_not_eq_true hv

theorem select_loop_falsy (ts : List (List Char)) :
    ∀ (groups : TypeGroups) (rp : Option (List (List Char))) (acc : Option (List Char)),
      pyTruthyUrl acc = false → (∀ t' ∈ ts, typeYield groups rp t' = none) →
      pyTruthyUrl (select_thumbnail_loop ts groups rp acc) = false := by
  induction ts with
  | nil => intro groups rp acc hacc _; simpa [select_thumbnail_loop] using hacc
  | cons t ts' ih =>
    intro groups rp acc hacc h
    have ht := h t (List.mem_cons_self _ _)
    rw [select_loop_cons, ht]
    exact ih groups rp _ (selStep_falsy hacc ht)
      (fun t' ht' => h t' (List.mem_cons_of_mem _ ht'))

theorem select_loop_hit (pre : List (List Char)) :
    ∀ (post : List (List Char)) (groups : TypeGroups)
      (rp : Option (List (List Char))) (acc : Option (List Char)) (t u : List Char),
      pyTruthyUrl acc = false → (∀ t' ∈ pre, typeYield groups rp t' = none) →
      typeYield groups rp t = some u →
      select_thumbnail_loop (pre ++ t :: post) groups rp acc = some u := by
  induction pre with
  | nil =>
    intro post groups rp acc t u _ _ ht
    rw [List.nil_append, select_loop_cons, ht]
  | cons p pre' ih =>
    intro post groups rp acc t u hacc hpre ht
    have hp := hpre p (List.mem_cons_self _ _)
    rw [List.cons_append, select_loop_cons, hp]
    exact ih post groups rp _ t u (selStep_falsy hacc hp)
      (fun t' ht' => hpre t' (List.mem_cons_of_mem _ ht')) ht

/-- C3, counterexample to the claim as stated: `Named_Snaps` is the first
thumbnail type in priority order and is present with a non-empty candidate
list, whose region-filtered pick is the empty-string URL — yet the selector
does not stay within that list: the Python truthiness test `if selected_url:`
rejects `""` and the loop falls through to `Named_Boxarts`, returning `u2`. -/
theorem c3_counterexample_empty_url :
    List.lookup "Named_Snaps".toList
        [("Named_Snaps".toList, [("Game (USA)".toList, ([] : List Char))]),
         ("Named_Boxarts".toList, [("Game (USA)".toList, "u2".toList)])]
      = some [("Game (USA)".toList, ([] : List Char))]
    ∧ apply_region_preference [("Game (USA)".toList, ([] : List Char))] none
      = some ([] : List Char)
    ∧ select_thumbnail_url ["Named_Snaps".toList, "Named_Boxarts".toList]
        [("Named_Snaps".toList, [("Game (USA)".toList, ([] : List Char))]),
         ("Named_Boxarts".toList, [("Game (USA)".toList, "u2".toList)])] none
      = some "u2".toList := by
  refine ⟨by decide, by decide, by decide⟩

/-- C3, amended: selection tries the thumbnail types in priority order and
returns the region-filtered URL of the first type that is present with a
non-empty candidate list *and* whose selected URL is non-empty (Python
truthiness); a type whose pick is the empty string is passed over.  If no
requested type yields a truthy URL — in particular when no requested type has
any candidates — the selector returns no selection, and the (system, key)
pair contributes nothing downstream. -/
theorem c3_type_priority_first_truthy (groups : TypeGroups)
    (rp : Option (List (List Char))) (pre post types : List (List Char))
    (t u : List Char) :
    ((∀ t' ∈ pre, typeYield groups rp t' = none) → typeYield groups rp t = some u →
      select_thumbnail_url (pre ++ t :: post) groups rp = some u)
    ∧ ((∀ t' ∈ types, typeYield groups rp t' = none) →
      select_thumbnail_url types groups rp = none) := by
  constructor
  · intro hpre ht
    unfold select_thumbnail_url
    rw [select_loop_hit pre post groups rp none t u rfl hpre ht]
    simp [pyTruthyUrl, typeYield_some_nonempty ht]
  · intro hall
    unfold select_thumbnail_url
    have hf := select_loop_falsy types groups rp none rfl hall
    simp [hf]

/-- Witness for C3 (amended): `boxart` requested first but absent, `snapshot`
present — the selector falls through to `snapshot`'s pick; and with no type
present at all, no selection results. -/
theorem c3_type_priority_first_truthy_witness :
    select_thumbnail_url ["Named_Boxarts".toList, "Named_Snaps".toList]
        [("Named_Snaps".toList, [("Game (USA)".toList, "s".toList)])] none
      = some "s".toList
    ∧ select_thumbnail_url ["Named_Snaps".toList] [] none = none :=
  ⟨(c3_type_priority_first_truthy
      [("Named_Snaps".toList, [("Game (USA)".toList, "s".toList)])] none
      ["Named_Boxarts".toList] [] [] "Named_Snaps".toList "s".toList).1
      (by decide) (by decide),
   (c3_type_priority_first_truthy [] none [] [] ["Named_Snaps".toList]
      "Named_Snaps".toList "s".toList).2 (by decide)⟩

theorem any_eq_find?_isSome {α : Type} (p : α → Bool) (l : List α) :
    l.any p = (l.find? p).isSome := by
  induction l with
  | nil => rfl
  | cons a l ih =>
    by_cases hpa : p a
    · simp [List.any_cons, List.find?_cons, hpa]
    · simp [List.any_cons, List.find?_cons, hpa, ih]

theorem not_mem_keys_iff {β : Type} (k : List Char) (l : List (List Char × β)) :
    k ∉ l.map Prod.fst ↔ ∀ p ∈ l, p.1 ≠ k := by
  constructor
  · intro h p hp hpk
    exact h (hpk ▸ List.mem_map_of_mem Prod.fst hp)
  · intro h hmem
    obtain ⟨p, hp, hpk⟩ := List.mem_map.mp hmem
    exact h p hp hpk

theorem lookup_none_iff {β : Type} (k : List Char) (l : List (List Char × β)) :
    List.lookup k l = none ↔ ∀ p ∈ l, p.1 ≠ k := by
  induction l with
  | nil => exact ⟨fun _ p hp => absurd hp (List.not_mem_nil p), fun _ => rfl⟩
  | cons q rest ih =>
    obtain ⟨a, b⟩ := q
    by_cases hk : k = a
    · subst hk
      constructor
      · intro h
        simp only [List.lookup_cons, beq_self_eq_true] at h
        exact absurd h (Option.some_ne_none b)
      · intro h
        exact absurd rfl (h (k, b) (List.mem_cons_self _ _))
    · constructor
      · intro h p hp
        simp only [List.lookup_cons, beq_false_of_ne hk] at h
        rcases List.mem_cons.mp hp with h1 | h1
        · rw [h1]
          exact fun hcon => hk hcon.symm
        · exact (ih.mp h) p h1
      · intro h
        simp only [List.lookup_cons, beq_false_of_ne hk]
        exact ih.mpr (fun p hp => h p (List.mem_cons_of_mem _ hp))

theorem romMatcher_false_of_ne {c k : List Char} {f : RomFile}
    (h : ¬(c = consoleMapGet f.parent ∧ k = clean_title f.name)) :
    romMatcher c k f = false := by
  unfold romMatcher
  by_cases h1 : consoleMapGet f.parent = c
  · by_cases h2 : clean_title f.name = k
    · exact absurd ⟨h1.symm, h2.symm⟩ h
    · simp [beq_iff_eq, h2]
  · simp [beq_iff_eq, h1]

theorem romMatcher_self {f : RomFile} (h : (clean_title f.name).isEmpty = false) :
    romMatcher (consoleMapGet f.parent) (clean_title f.name) f = true := by
  unfold romMatcher
  simp [h]

theorem lookupRom_insertRom (m : RomMap) (c k : List Char) (f : RomFile) :
    lookupRom m c k = none → ∀ c' k',
      lookupRom (insertRom m c k f) c' k' =
        if c' = c ∧ k' = k then some f else lookupRom m c' k' := by
  induction m with
  | nil =>
    intro _ c' k'
    by_cases hc : c' = c
    · subst hc
      by_cases hk : k' = k
      · subst hk
        simp [insertRom, lookupRom, List.lookup_cons]
      · simp [insertRom, lookupRom, List.lookup_cons, beq_false_of_ne hk, hk]
    · simp [insertRom, lookupRom, List.lookup_cons, beq_false_of_ne hc, hc]
  | cons q rest ih =>
    obtain ⟨c0, roms⟩ := q
    intro hnone c' k'
    by_cases hc0 : c0 = c
    · subst hc0
      have hroms : List.lookup k roms = none := by
        unfold lookupRom at hnone
        simp only [List.lookup_cons, beq_self_eq_true] at hnone
        exact hnone
      have hins : insertRom ((c0, roms) :: rest) c0 k f
          = (c0, roms ++ [(k, f)]) :: rest := by
        simp [insertRom]
      rw [hins]
      by_cases hc' : c' = c0
      · subst hc'
        unfold lookupRom
        simp only [List.lookup_cons, beq_self_eq_true]
        rw [List.lookup_append]
        by_cases hk' : k' = k
        · subst hk'
          simp [hroms, List.lookup_cons]
        · simp [List.lookup_cons, beq_false_of_ne hk', hk']
      · rw [if_neg (fun hcon => hc' hcon.1)]
        unfold lookupRom
        simp [List.lookup_cons, beq_false_of_ne hc']
    · have hins : insertRom ((c0, roms) :: rest) c k f
          = (c0, roms) :: insertRom rest c k f := by
        simp [insertRom, beq_false_of_ne hc0]
      rw [hins]
      have hnone' : lookupRom rest c k = none := by
        unfold lookupRom at hnone ⊢
        simpa [List.lookup_cons, beq_false_of_ne (fun h => hc0 h.symm)] using hnone
      by_cases hc' : c' = c0
      · rw [if_neg (fun hcon => hc0 (hc'.symm.trans hcon.1))]
        unfold lookupRom
        simp [List.lookup_cons, hc']
      · unfold lookupRom
        simp only [List.lookup_cons, beq_false_of_ne hc']
        have := ih hnone' c' k'
        unfold lookupRom at this
        exact this

theorem insertRom_keys (m : RomMap) (c k : List Char) (f : RomFile) :
    (insertRom m c k f).map Prod.fst = m.map Prod.fst
    ∨ (insertRom m c k f).map Prod.fst = m.map Prod.fst ++ [c] := by
  induction m with
  | nil => right; rfl
  | cons q rest ih =>
    obtain ⟨c0, roms⟩ := q
    by_cases hc : c0 = c
    · subst hc
      left
      simp [insertRom]
    · have hins : insertRom ((c0, roms) :: rest) c k f
          = (c0, roms) :: insertRom rest c k f := by
        simp [insertRom, beq_false_of_ne hc]
      rw [hins]
      rcases ih with h | h
      · left; simp [h]
      · right; simp [h]

theorem nodup_keys_append {β : Type} {l : List (List Char × β)} {k : List Char} (v : β)
    (hnodup : (l.map Prod.fst).Nodup) (hnew : List.lookup k l = none) :
    ((l ++ [(k, v)]).map Prod.fst).Nodup := by
  rw [List.map_append, List.nodup_append]
  refine ⟨hnodup, List.nodup_singleton k, fun a ha hb => ?_⟩
  have hak : a = k := by
    have : a ∈ [k] := hb
    simpa using this
  subst hak
  obtain ⟨p, hp, hpk⟩ := List.mem_map.mp ha
  exact (lookup_none_iff a l).mp hnew p hp hpk

theorem RomMapWF_insertRom (m : RomMap) (c k : List Char) (f : RomFile) :
    RomMapWF m → lookupRom m c k = none → RomMapWF (insertRom m c k f) := by
  induction m with
  | nil =>
    intro _ _
    refine ⟨List.nodup_singleton c, fun p hp => ?_⟩
    have hp' : p = (c, [(k, f)]) := by simpa [insertRom] using hp
    rw [hp']
    exact ⟨by simp, List.nodup_singleton k⟩
  | cons q rest ih =>
    obtain ⟨c0, roms⟩ := q
    intro hwf hnone
    obtain ⟨hnodup, hin⟩ := hwf
    rw [List.map_cons, List.nodup_cons] at hnodup
    by_cases hc : c0 = c
    · subst hc
      have hroms : List.lookup k roms = none := by
        unfold lookupRom at hnone
        simp only [List.lookup_cons, beq_self_eq_true] at hnone
        exact hnone
      have hins : insertRom ((c0, roms) :: rest) c0 k f
          = (c0, roms ++ [(k, f)]) :: rest := by
        simp [insertRom]
      rw [hins]
      constructor
      · rw [List.map_cons, List.nodup_cons]
        exact hnodup
      · intro p hp
        rcases List.mem_cons.mp hp with h1 | h1
        · rw [h1]
          refine ⟨by simp, ?_⟩
          exact nodup_keys_append f
            (hin (c0, roms) (List.mem_cons_self _ _)).2 hroms
        · exact hin p (List.mem_cons_of_mem _ h1)
    · have hins : insertRom ((c0, roms) :: rest) c k f
          = (c0, roms) :: insertRom rest c k f := by
        simp [insertRom, beq_false_of_ne hc]
      rw [hins]
      have hnone' : lookupRom rest c k = none := by
        unfold lookupRom at hnone ⊢
        simp only [List.lookup_cons,
          beq_false_of_ne (fun h => hc h.symm)] at hnone
        exact hnone
      have hwfrest : RomMapWF rest :=
        ⟨hnodup.2, fun p hp => hin p (List.mem_cons_of_mem _ hp)⟩
      obtain ⟨hnodup', hin'⟩ := ih hwfrest hnone'
      constructor
      · rw [List.map_cons, List.nodup_cons]
        refine ⟨?_, hnodup'⟩
        rcases insertRom_keys rest c k f with h | h
        · rw [h]; exact hnodup.1
        · rw [h]
          intro hmem
          rcases List.mem_append.mp hmem with h1 | h1
          · exact hnodup.1 h1
          · have : c0 = c := by simpa using h1
            exact hc this
      · intro p hp
        rcases List.mem_cons.mp hp with h1 | h1
        · rw [h1]
          exact hin (c0, roms) (List.mem_cons_self _ _)
        · exact hin' p h1

theorem dupWarnList_append_one (l : List RomFile) :
    ∀ (earlier : List RomFile) (f : RomFile),
      dupWarnList earlier (l ++ [f]) =
        dupWarnList earlier l ++
          (if isDuplicateFile (earlier ++ l) f then
            [RomWarning.duplicate (consoleMapGet f.parent) (clean_title f.name)]
          else []) := by
  induction l with
  | nil =>
    intro earlier f
    simp [dupWarnList]
  | cons g l ih =>
    intro earlier f
    simp only [List.cons_append, dupWarnList, List.append_eq]
    rw [ih (earlier ++ [g]) f]
    simp [List.append_assoc]

theorem isDuplicateFile_eq_find? (earlier : List RomFile) (f : RomFile)
    (h : (clean_title f.name).isEmpty = false) :
    isDuplicateFile earlier f
      = (earlier.find?
          (romMatcher (consoleMapGet f.parent) (clean_title f.name))).isSome := by
  unfold isDuplicateFile
  rw [h, any_eq_find?_isSome]
  simp

theorem isDuplicateFile_empty_key {earlier : List RomFile} {f : RomFile}
    (h : (clean_title f.name).isEmpty = true) :
    isDuplicateFile earlier f = false := by
  unfold isDuplicateFile
  rw [h]
  simp

theorem discover_foldl_inv (files : List RomFile) :
    ∀ (done : List RomFile) (m : RomMap) (ws : List RomWarning),
      (∀ c k, lookupRom m c k = done.find? (romMatcher c k)) →
      RomMapWF m →
      ws.filter isDupWarning = dupWarnList [] done →
      (∀ c k, lookupRom (files.foldl discoverStep (m, ws)).1 c k
          = (done ++ files).find? (romMatcher c k))
      ∧ RomMapWF (files.foldl discoverStep (m, ws)).1
      ∧ (files.foldl discoverStep (m, ws)).2.filter isDupWarning
          = dupWarnList [] (done ++ files) := by
  induction files with
  | nil =>
    intro done m ws h1 h2 h3
    simp only [List.foldl_nil, List.append_nil]
    exact ⟨h1, h2, h3⟩
  | cons f fs ih =>
    intro done m ws h1 h2 h3
    rw [List.foldl_cons]
    have hassoc : (done ++ [f]) ++ fs = done ++ f :: fs := by
      simp
    by_cases hkey : (clean_title f.name).isEmpty
    · have hstep : discoverStep (m, ws) f = (m, ws) := by
        unfold discoverStep
        simp [hkey]
      rw [hstep]
      have h1' : ∀ c k, lookupRom m c k = (done ++ [f]).find? (romMatcher c k) := by
        intro c k
        rw [List.find?_append, h1 c k]
        have hm : romMatcher c k f = false := by
          unfold romMatcher
          rw [hkey]
          simp
        simp [List.find?, hm]
      have h3' : ws.filter isDupWarning = dupWarnList [] (done ++ [f]) := by
        rw [dupWarnList_append_one, isDuplicateFile_empty_key hkey]
        simp [h3]
      have := ih (done ++ [f]) m ws h1' h2 h3'
      rw [hassoc] at this
      exact this
    · rw [Bool.not_eq_true] at hkey
      cases hdup : lookupRom m (consoleMapGet f.parent) (clean_title f.name) with
      | some g =>
        have hstep : discoverStep (m, ws) f
            = (m, ws ++ [RomWarning.duplicate (consoleMapGet f.parent)
                (clean_title f.name)]) := by
          unfold discoverStep
          simp [hkey, hdup]
        rw [hstep]
        have h1' : ∀ c k, lookupRom m c k = (done ++ [f]).find? (romMatcher c k) := by
          intro c k
          rw [List.find?_append, h1 c k]
          by_cases hck : c = consoleMapGet f.parent ∧ k = clean_title f.name
          · obtain ⟨hc, hk⟩ := hck
            subst hc; subst hk
            rw [← h1 _ _, hdup]
            rfl
          · simp [List.find?, romMatcher_false_of_ne hck]
        have h3' : (ws ++ [RomWarning.duplicate (consoleMapGet f.parent)
              (clean_title f.name)]).filter isDupWarning
            = dupWarnList [] (done ++ [f]) := by
          rw [List.filter_append, dupWarnList_append_one]
          have hdupf : isDuplicateFile ([] ++ done) f = true := by
            rw [List.nil_append, isDuplicateFile_eq_find? done f hkey]
            rw [← h1 _ _, hdup]
            rfl
          rw [hdupf, h3]
          simp [isDupWarning]
        have := ih (done ++ [f]) m _ h1' h2 h3'
        rw [hassoc] at this
        exact this
      | none =>
        have hnewf : ∃ ws', discoverStep (m, ws) f
            = (insertRom m (consoleMapGet f.parent) (clean_title f.name) f, ws')
            ∧ ws'.filter isDupWarning = ws.filter isDupWarning := by
          unfold discoverStep
          simp only [hkey, Bool.false_eq_true, if_false, hdup]
          by_cases hmap : (List.lookup f.parent CONSOLE_MAPPING).isNone
          · refine ⟨ws ++ [RomWarning.unmapped f.parent], by simp [hmap], ?_⟩
            rw [List.filter_append]
            simp [isDupWarning]
          · exact ⟨ws, by simp [hmap], rfl⟩
        obtain ⟨ws', hstep, hws'⟩ := hnewf
        rw [hstep]
        have h1' : ∀ c k,
            lookupRom (insertRom m (consoleMapGet f.parent) (clean_title f.name) f) c k
              = (done ++ [f]).find? (romMatcher c k) := by
          intro c k
          rw [lookupRom_insertRom m _ _ f hdup c k, List.find?_append, h1 c k]
          by_cases hck : c = consoleMapGet f.parent ∧ k = clean_title f.name
          · obtain ⟨hc, hk⟩ := hck
            subst hc; subst hk
            rw [if_pos ⟨rfl, rfl⟩, ← h1 _ _, hdup]
            simp [List.find?, romMatcher_self hkey]
          · rw [if_neg hck]
            simp [List.find?, romMatcher_false_of_ne hck]
        have h2' : RomMapWF (insertRom m (consoleMapGet f.parent)
            (clean_title f.name) f) :=
          RomMapWF_insertRom m _ _ f h2 hdup
        have h3' : ws'.filter isDupWarning = dupWarnList [] (done ++ [f]) := by
          rw [hws', dupWarnList_append_one]
          have hdupf : isDuplicateFile ([] ++ done) f = false := by
            rw [List.nil_append, isDuplicateFile_eq_find? done f hkey]
            rw [← h1 _ _, hdup]
            rfl
          rw [hdupf, h3]
          simp
        have := ih (done ++ [f]) _ ws' h1' h2' h3'
        rw [hassoc] at this
        exact this

/-- C8: `discover_roms` keeps at most one entry per (system, clean key) —
its per-console key lists are duplicate-free, the entry stored for
`(console, key)` is exactly the first file in listing order whose folder maps
to `console` and whose non-empty clean name is `key` (later colliding files
are discarded), and the duplicate warnings are precisely one warning per
discarded file, in order. -/
theorem c8_discover_first_wins (files : List RomFile) (console key : List Char) :
    (∀ roms, (console, roms) ∈ (discover_roms files).1 → (roms.map Prod.fst).Nodup)
    ∧ lookupRom (discover_roms files).1 console key
        = files.find? (romMatcher console key)
    ∧ (discover_roms files).2.filter isDupWarning = dupWarnList [] files := by
  have hinv := discover_foldl_inv files [] [] []
    (fun c k => rfl) ⟨List.nodup_nil, fun p hp => absurd hp (List.not_mem_nil p)⟩ rfl
  obtain ⟨h1, h2, h3⟩ := hinv
  have hfilter : (files.foldl discoverStep ([], [])).1.filter (fun p => !p.2.isEmpty)
      = (files.foldl discoverStep ([], [])).1 := by
    apply List.filter_eq_self.mpr
    intro p hp
    have := (h2.2 p hp).1
    simp [List.isEmpty_eq_false, this]
  refine ⟨?_, ?_, ?_⟩
  · intro roms hmem
    have hmem' : (console, roms) ∈ (files.foldl discoverStep ([], [])).1 := by
      have : (discover_roms files).1
          = (files.foldl discoverStep ([], [])).1.filter (fun p => !p.2.isEmpty) := rfl
      rw [this, hfilter] at hmem
      exact hmem
    exact (h2.2 (console, roms) hmem').2
  · have : (discover_roms files).1
        = (files.foldl discoverStep ([], [])).1.filter (fun p => !p.2.isEmpty) := rfl
    rw [show lookupRom (discover_roms files).1 console key
        = lookupRom (files.foldl discoverStep ([], [])).1 console key from by
      rw [this, hfilter]]
    simpa using h1 console key
  · simpa using h3

/-- Witness for C8: two files in folder `nes` normalize to the key `Game`; the
first is kept, the second is discarded with exactly one duplicate warning. -/
theorem c8_discover_first_wins_witness :
    ([("Game".toList, RomFile.mk "nes".toList "Game (USA).nes".toList)].map
        Prod.fst).Nodup
    ∧ lookupRom (discover_roms
          [⟨"nes".toList, "Game (USA).nes".toList⟩,
           ⟨"nes".toList, "Game (Europe).nes".toList⟩]).1
        "Nintendo_-_Nintendo_Entertainment_System".toList "Game".toList
      = List.find?
          (romMatcher "Nintendo_-_Nintendo_Entertainment_System".toList "Game".toList)
          [⟨"nes".toList, "Game (USA).nes".toList⟩,
           ⟨"nes".toList, "Game (Europe).nes".toList⟩]
    ∧ (discover_roms
          [⟨"nes".toList, "Game (USA).nes".toList⟩,
           ⟨"nes".toList, "Game (Europe).nes".toList⟩]).2.filter isDupWarning
      = dupWarnList []
          [⟨"nes".toList, "Game (USA).nes".toList⟩,
           ⟨"nes".toList, "Game (Europe).nes".toList⟩] := by
  have h := c8_discover_first_wins
    [⟨"nes".toList, "Game (USA).nes".toList⟩,
     ⟨"nes".toList, "Game (Europe).nes".toList⟩]
    "Nintendo_-_Nintendo_Entertainment_System".toList "Game".toList
  exact ⟨h.1 [("Game".toList, RomFile.mk "nes".toList "Game (USA).nes".toList)]
    (by decide), h.2.1, h.2.2⟩

theorem genConsoleCommands_eq (c : List Char) (imgs : List (List Char × List Char))
    (fsExists : List Char → Bool) :
    ∀ roms : List (List Char × List Char),
      genConsoleCommands imgs fsExists roms
        = ((pairsOfConsole c imgs roms).filter
            (fun e => !fsExists (pairDest e))).map pairCommand := by
  intro roms
  induction roms with
  | nil => rfl
  | cons p rest ih =>
    obtain ⟨k, romPath⟩ := p
    simp only [genConsoleCommands, pairsOfConsole]
    cases hlk : List.lookup k imgs with
    | none => simpa using ih
    | some url =>
      simp only [List.filter_append, List.map_append]
      rw [← ih]
      by_cases hex : fsExists (pyWithSuffix romPath (imageExt url))
      · simp [pairDest, pairCommand, hex]
      · simp [pairDest, pairCommand, hex]

theorem generate_eq_enum (image_map : UrlMap) (fsExists : List Char → Bool) :
    ∀ rom_map : UrlMap,
      generate_wget_commands image_map fsExists rom_map
        = ((enumMatchedPairs image_map rom_map).filter
            (fun e => !fsExists (pairDest e))).map pairCommand := by
  intro rom_map
  induction rom_map with
  | nil => rfl
  | cons p rest ih =>
    obtain ⟨console, roms⟩ := p
    simp only [generate_wget_commands, enumMatchedPairs]
    cases hlk : List.lookup console image_map with
    | none => simpa using ih
    | some imgs =>
      simp only [List.filter_append, List.map_append]
      rw [ih, genConsoleCommands_eq console imgs]

theorem pairsOfConsole_console (c : List Char) (imgs : List (List Char × List Char)) :
    ∀ (roms : List (List Char × List Char)) (e : MatchedPair),
      e ∈ pairsOfConsole c imgs roms → e.console = c := by
  intro roms
  induction roms with
  | nil => intro e he; exact absurd he (List.not_mem_nil e)
  | cons p rest ih =>
    obtain ⟨k, romPath⟩ := p
    intro e he
    simp only [pairsOfConsole] at he
    rcases List.mem_append.mp he with h1 | h1
    · cases hlk : List.lookup k imgs with
      | none => rw [hlk] at h1; exact absurd h1 (List.not_mem_nil e)
      | some url =>
        rw [hlk] at h1
        have : e = ⟨c, k, romPath, url⟩ := by simpa using h1
        rw [this]
    · exact ih e h1

theorem pairsOfConsole_key (c : List Char) (imgs : List (List Char × List Char)) :
    ∀ (roms : List (List Char × List Char)) (e : MatchedPair),
      e ∈ pairsOfConsole c imgs roms → e.key ∈ roms.map Prod.fst := by
  intro roms
  induction roms with
  | nil => intro e he; exact absurd he (List.not_mem_nil e)
  | cons p rest ih =>
    obtain ⟨k, romPath⟩ := p
    intro e he
    simp only [pairsOfConsole] at he
    rcases List.mem_append.mp he with h1 | h1
    · cases hlk : List.lookup k imgs with
      | none => rw [hlk] at h1; exact absurd h1 (List.not_mem_nil e)
      | some url =>
        rw [hlk] at h1
        have : e = ⟨c, k, romPath, url⟩ := by simpa using h1
        rw [this, List.map_cons]
        exact List.mem_cons_self _ _
    · rw [List.map_cons]
      exact List.mem_cons_of_mem _ (ih e h1)

theorem filter_pairs_key_not_mem (c : List Char) (imgs : List (List Char × List Char))
    (k : List Char) :
    ∀ roms : List (List Char × List Char), k ∉ roms.map Prod.fst →
      (pairsOfConsole c imgs roms).filter
        (fun e => e.console == c && e.key == k) = [] := by
  intro roms hnot
  apply List.filter_eq_nil_iff.mpr
  intro e he
  have hk := pairsOfConsole_key c imgs roms e he
  have hne : e.key ≠ k := fun hcon => hnot (hcon ▸ hk)
  simp [beq_false_of_ne hne]

theorem filter_pairs_other_console (c c' : List Char)
    (imgs : List (List Char × List Char)) (k : List Char) (hne : c' ≠ c) :
    ∀ roms : List (List Char × List Char),
      (pairsOfConsole c' imgs roms).filter
        (fun e => e.console == c && e.key == k) = [] := by
  intro roms
  apply List.filter_eq_nil_iff.mpr
  intro e he
  have hc := pairsOfConsole_console c' imgs roms e he
  have : e.console ≠ c := fun hcon => hne (hc ▸ hcon)
  simp [beq_false_of_ne this]

theorem filter_enum_console_not_mem (image_map : UrlMap) (c k : List Char) :
    ∀ rom_map : UrlMap, c ∉ rom_map.map Prod.fst →
      (enumMatchedPairs image_map rom_map).filter
        (fun e => e.console == c && e.key == k) = [] := by
  intro rom_map
  induction rom_map with
  | nil => intro _; rfl
  | cons p rest ih =>
    obtain ⟨c0, roms⟩ := p
    intro hnot
    have hc0 : c0 ≠ c := by
      intro hcon
      exact hnot (by rw [List.map_cons, hcon]; exact List.mem_cons_self _ _)
    have hrest : c ∉ rest.map Prod.fst :=
      fun h => hnot (by rw [List.map_cons]; exact List.mem_cons_of_mem _ h)
    simp only [enumMatchedPairs]
    rw [List.filter_append, ih hrest]
    cases hlk : List.lookup c0 image_map with
    | none => rfl
    | some imgs =>
      rw [filter_pairs_other_console c c0 imgs k hc0 roms]
      rfl

theorem filter_pairs_key_singleton (c : List Char)
    (imgs : List (List Char × List Char)) (k path url : List Char) :
    ∀ roms : List (List Char × List Char), (roms.map Prod.fst).Nodup →
      List.lookup k roms = some path → List.lookup k imgs = some url →
      (pairsOfConsole c imgs roms).filter
        (fun e => e.console == c && e.key == k) = [⟨c, k, path, url⟩] := by
  intro roms
  induction roms with
  | nil =>
    intro _ hk _
    exact absurd hk (by simp [List.lookup])
  | cons p rest ih =>
    obtain ⟨k0, p0⟩ := p
    intro hnodup hk hurl
    rw [List.map_cons, List.nodup_cons] at hnodup
    by_cases hk0 : k = k0
    · subst hk0
      have hp0 : p0 = path := by
        simp only [List.lookup_cons, beq_self_eq_true] at hk
        exact Option.some.inj hk
      subst hp0
      simp only [pairsOfConsole, hurl]
      rw [List.filter_append, filter_pairs_key_not_mem c imgs k rest hnodup.1]
      simp [List.filter]
    · have hk' : List.lookup k rest = some path := by
        simp only [List.lookup_cons, beq_false_of_ne hk0] at hk
        exact hk
      simp only [pairsOfConsole]
      rw [List.filter_append, ih hnodup.2 hk' hurl]
      cases hlk : List.lookup k0 imgs with
      | none => rfl
      | some url0 =>
        have : (⟨c, k0, p0, url0⟩ : MatchedPair).key ≠ k := fun h => hk0 h.symm
        simp [List.filter, beq_false_of_ne this]

theorem filter_enum_singleton (image_map : UrlMap) (c k path url : List Char) :
    ∀ rom_map : UrlMap, (rom_map.map Prod.fst).Nodup →
      (∀ p ∈ rom_map, (p.2.map Prod.fst).Nodup) →
      lookupUrl rom_map c k = some path → lookupUrl image_map c k = some url →
      (enumMatchedPairs image_map rom_map).filter
        (fun e => e.console == c && e.key == k) = [⟨c, k, path, url⟩] := by
  intro rom_map
  induction rom_map with
  | nil =>
    intro _ _ hrom _
    exact absurd hrom (by simp [lookupUrl, List.lookup])
  | cons p rest ih =>
    obtain ⟨c0, roms⟩ := p
    intro hnodup hinner hrom himg
    rw [List.map_cons, List.nodup_cons] at hnodup
    by_cases hc0 : c = c0
    · subst hc0
      have hroms : List.lookup k roms = some path := by
        unfold lookupUrl at hrom
        simp only [List.lookup_cons, beq_self_eq_true] at hrom
        exact hrom
      cases hlkI : List.lookup c image_map with
      | none =>
        unfold lookupUrl at himg
        rw [hlkI] at himg
        exact absurd himg (by simp)
      | some imgs =>
        have himgs : List.lookup k imgs = some url := by
          unfold lookupUrl at himg
          rw [hlkI] at himg
          exact himg
        simp only [enumMatchedPairs, hlkI]
        rw [List.filter_append,
          filter_pairs_key_singleton c imgs k path url roms
            ((hinner (c, roms) (List.mem_cons_self _ _))) hroms himgs,
          filter_enum_console_not_mem image_map c k rest hnodup.1]
        rfl
    · have hrom' : lookupUrl rest c k = some path := by
        unfold lookupUrl at hrom ⊢
        simp only [List.lookup_cons, beq_false_of_ne hc0] at hrom
        exact hrom
      simp only [enumMatchedPairs]
      rw [List.filter_append,
        ih hnodup.2 (fun p hp => hinner p (List.mem_cons_of_mem _ hp)) hrom' himg]
      cases hlk : List.lookup c0 image_map with
      | none => rfl
      | some imgs =>
        rw [filter_pairs_other_console c c0 imgs k
          (fun h => hc0 h.symm) roms]
        rfl

/-- C9: given dict-shaped maps (duplicate-free keys), a (system, key) pair
present in both the ROM map and the image map yields exactly one matched pair —
carrying that ROM path and that URL — among all pairs the join enumerates; the
emitted commands are exactly one per matched pair whose destination
(`rom path` with its extension replaced by the URL path's extension, `.png`
when the URL has none) does not already exist; in particular the matched
pair's command is emitted when its destination is absent, and nothing is
emitted for it when the destination exists. -/
theorem c9_join_one_command_per_match (image_map rom_map : UrlMap)
    (fsExists : List Char → Bool) (console key path url : List Char)
    (hconsoles : (rom_map.map Prod.fst).Nodup)
    (hinner : ∀ p ∈ rom_map, (p.2.map Prod.fst).Nodup)
    (hrom : lookupUrl rom_map console key = some path)
    (himg : lookupUrl image_map console key = some url) :
    generate_wget_commands image_map fsExists rom_map
      = ((enumMatchedPairs image_map rom_map).filter
          (fun e => !fsExists (pairDest e))).map pairCommand
    ∧ (enumMatchedPairs image_map rom_map).filter
        (fun e => e.console == console && e.key == key)
        = [⟨console, key, path, url⟩]
    ∧ (fsExists (pyWithSuffix path (imageExt url)) = false →
        mkWgetCommand (pyQuote SAFE_CHARS url) (pyWithSuffix path (imageExt url))
          ∈ generate_wget_commands image_map fsExists rom_map) := by
  have h1 := generate_eq_enum image_map fsExists rom_map
  have h2 := filter_enum_singleton image_map console key path url rom_map
    hconsoles hinner hrom himg
  refine ⟨h1, h2, fun hex => ?_⟩
  have hmem : (⟨console, key, path, url⟩ : MatchedPair)
      ∈ enumMatchedPairs image_map rom_map := by
    have : (⟨console, key, path, url⟩ : MatchedPair)
        ∈ (enumMatchedPairs image_map rom_map).filter
          (fun e => e.console == console && e.key == key) := by
      rw [h2]
      exact List.mem_cons_self _ _
    exact List.mem_of_mem_filter this
  rw [h1]
  show pairCommand ⟨console, key, path, url⟩ ∈ _
  apply List.mem_map_of_mem pairCommand
  apply List.mem_filter.mpr
  exact ⟨hmem, by simp [pairDest, hex]⟩

/-- Witness for C9: one matched ROM (`Sonic` on `nes`) with an absent
destination produces its single wget command. -/
theorem c9_join_one_command_per_match_witness :
    generate_wget_commands
        [("nes".toList, [("Sonic".toList, "http://e.com/Sonic.png".toList)])]
        (fun _ => false)
        [("nes".toList, [("Sonic".toList, "/r/nes/Sonic.bin".toList)])]
      = ((enumMatchedPairs
            [("nes".toList, [("Sonic".toList, "http://e.com/Sonic.png".toList)])]
            [("nes".toList, [("Sonic".toList, "/r/nes/Sonic.bin".toList)])]).filter
          (fun e => !(fun _ => false) (pairDest e))).map pairCommand
    ∧ (enumMatchedPairs
          [("nes".toList, [("Sonic".toList, "http://e.com/Sonic.png".toList)])]
          [("nes".toList, [("Sonic".toList, "/r/nes/Sonic.bin".toList)])]).filter
        (fun e => e.console == "nes".toList && e.key == "Sonic".toList)
        = [⟨"nes".toList, "Sonic".toList, "/r/nes/Sonic.bin".toList,
            "http://e.com/Sonic.png".toList⟩]
    ∧ ((fun _ => false) (pyWithSuffix "/r/nes/Sonic.bin".toList
          (imageExt "http://e.com/Sonic.png".toList)) = false →
        mkWgetCommand (pyQuote SAFE_CHARS "http://e.com/Sonic.png".toList)
            (pyWithSuffix "/r/nes/Sonic.bin".toList
              (imageExt "http://e.com/Sonic.png".toList))
          ∈ generate_wget_commands
              [("nes".toList, [("Sonic".toList, "http://e.com/Sonic.png".toList)])]
              (fun _ => false)
              [("nes".toList, [("Sonic".toList, "/r/nes/Sonic.bin".toList)])]) :=
  c9_join_one_command_per_match
    [("nes".toList, [("Sonic".toList, "http://e.com/Sonic.png".toList)])]
    [("nes".toList, [("Sonic".toList, "/r/nes/Sonic.bin".toList)])]
    (fun _ => false) "nes".toList "Sonic".toList "/r/nes/Sonic.bin".toList
    "http://e.com/Sonic.png".toList
    (by decide) (by decide) (by decide) (by decide)
